import Mathlib

/-!
Verification of the entity-matching core of `src/matching.py`
(Normattiva laws → Camera dei Deputati acts).

Strings are modelled as `List Char` (`Str`).  Python's `re` character
classes `\d`, `\w`, `\s` are modelled on ASCII.  The two regular
expressions of the source are embedded as executable matchers; in both
patterns every quantifier is immediately followed by a character class
disjoint from its own (or by a literal), so Python's greedy backtracking
consumes exactly the maximal run and the matchers are deterministic
maximal-munch scanners with `re.search`'s leftmost-position rule.

Network collaborators (`requests`, `SPARQLWrapper`, `html.unescape`) are
passed as parameters; a raised exception is modelled by the `Except`
monad, and the absence of any `try/except` in `matching.py` corresponds
to plain monadic propagation.
-/

abbrev Str := List Char

/-- Python regex `\d` (ASCII decimal digit). -/
def isDigitChar (c : Char) : Bool := c.isDigit

/-- Python regex `\w` (ASCII word character: letter, digit or underscore). -/
def isWordChar (c : Char) : Bool := c.isAlphanum || c == '_'

/-- Python regex `\s` (ASCII whitespace). -/
def isSpaceChar (c : Char) : Bool :=
  c == ' ' || c == '\t' || c == '\n' || c == '\r' || c == '\x0b' || c == '\x0c'

/-- Python `str.strip()`: remove leading and trailing whitespace. -/
def pyStrip (s : Str) : Str :=
  ((s.dropWhile isSpaceChar).reverse.dropWhile isSpaceChar).reverse

/-- `re.sub(r'\s+', ' ', text)`: replace every maximal whitespace run by a
single space. -/
def collapseWs : Str → Str
  | [] => []
  | c :: cs =>
    if isSpaceChar c then ' ' :: collapseWs (cs.dropWhile isSpaceChar)
    else c :: collapseWs cs
termination_by l => l.length
decreasing_by
  · have := (List.dropWhile_sublist (l := cs) isSpaceChar).length_le
    simp only [List.length_cons]
    omega
  · simp

/-- `re.findall(r'\b\w{4,}\b', s)` finds exactly the maximal runs of word
characters; `wordRuns` lists those runs (the length filter is applied by
the caller). -/
def wordRuns : Str → List Str
  | [] => []
  | c :: cs =>
    if isWordChar c then
      (c :: cs.takeWhile isWordChar) :: wordRuns (cs.dropWhile isWordChar)
    else wordRuns cs
termination_by l => l.length
decreasing_by
  · have := (List.dropWhile_sublist (l := cs) isWordChar).length_le
    simp only [List.length_cons]
    omega
  · simp

/-- `_significant_words` (src/matching.py lines 150-152): decode HTML
entities, collapse whitespace, lowercase, and return the set of word runs
of length ≥ 4.  The stdlib decoder `html.unescape` is an external
collaborator (its entity table is not part of this repository) and is
passed as the parameter `unescape`. -/
def significant_words (unescape : Str → Str) (text : Str) : Finset Str :=
  ((wordRuns ((collapseWs (unescape text)).map Char.toLower)).filter
    (fun w => 4 ≤ w.length)).toFinset

/-- One flattened Camera SPARQL hit, as produced by `flatten_hits`
(src/matching.py lines 132-141): a record of the projected binding values.
`atto` is the act URI used for deduplication and set membership. -/
structure Hit where
  atto : Str
  numero : Str
  titolo : Str
  fase : Str
  dataIter : Str
deriving DecidableEq

/-- `flatten_hits` deduplication loop (src/matching.py lines 134-141):
keep the first occurrence of each `atto` URI, tracking seen URIs.
(The projection `{k: v["value"]}` is already reflected in `Hit`.) -/
def flattenGo (seen : List Str) : List Hit → List Hit
  | [] => []
  | h :: t =>
    if h.atto ∈ seen then flattenGo seen t
    else h :: flattenGo (h.atto :: seen) t

/-- `flatten_hits` (src/matching.py lines 132-141). -/
def flatten_hits (hits : List Hit) : List Hit := flattenGo [] hits

/-- `intersect` (src/matching.py lines 144-147): acts present in both hit
lists, by `atto` URI.  Python builds the set `uris_b = {h["atto"] for h in
hits_b}` and keeps the elements of `hits_a` whose `atto` is in it;
membership in that set is membership in `hits_b.map Hit.atto`. -/
def intersect (hits_a hits_b : List Hit) : List Hit :=
  hits_a.filter (fun h => decide (h.atto ∈ hits_b.map Hit.atto))

/-- The Combiner, inlined in `match_norm` (src/matching.py lines 182-188):
intersection if both strategies fired; otherwise fall back to whichever
ran.  Python truthiness of a list is non-emptiness. -/
def combine (hits_a hits_b : List Hit) : List Hit :=
  if hits_a ≠ [] ∧ hits_b ≠ [] then intersect hits_a hits_b
  else if hits_a ≠ [] then hits_a
  else hits_b

/-- The Confidence Classifier, inlined in `match_norm`
(src/matching.py lines 194-199). -/
def classify (matched : List Hit) : Str :=
  if matched.length = 1 then "exact".toList
  else if matched.length > 1 then "ambiguous".toList
  else "no_match".toList

/-- The keyword-overlap score of one candidate in `refine_by_keywords`
(src/matching.py line 164): size of the intersection of the significant
words of the Normattiva sottoTitolo with those of the Camera titolo. -/
def scoreOf (unescape : Str → Str) (sotto_titolo : Str) (c : Hit) : Nat :=
  (significant_words unescape sotto_titolo ∩
    significant_words unescape c.titolo).card

/-- Python `max` on a list of naturals.  In the source it is applied only
to non-empty lists, where `foldl Nat.max 0` equals the maximum element. -/
def pyMax (l : List Nat) : Nat := l.foldl Nat.max 0

/-- `refine_by_keywords` (src/matching.py lines 155-166): when more than
one candidate survives, keep exactly the candidates tied at the highest
keyword-overlap score. -/
def refine_by_keywords (unescape : Str → Str) (sotto_titolo : Str)
    (candidates : List Hit) : List Hit :=
  if candidates.length ≤ 1 then candidates
  else
    let scored := candidates.map (fun c => (c, scoreOf unescape sotto_titolo c))
    let max_score := pyMax (scored.map Prod.snd)
    (scored.filter (fun p => decide (p.2 = max_score))).map Prod.fst

/-- The pure tail of `match_norm` (src/matching.py lines 182-199):
combine, refine when more than one candidate remains, classify.  Returns
the final matched list and the confidence string. -/
def matchCore (unescape : Str → Str) (sotto_titolo : Str)
    (hits_a hits_b : List Hit) : List Hit × Str :=
  let matched0 := combine hits_a hits_b
  let matched :=
    if matched0.length > 1 then refine_by_keywords unescape sotto_titolo matched0
    else matched0
  (matched, classify matched)

/-- Case-insensitive literal matcher (a literal under `re.IGNORECASE`):
consumes the literal from the front of the input, returning the rest. -/
def matchLitCI : Str → Str → Option Str
  | [], cs => some cs
  | _ :: _, [] => none
  | p :: ps, c :: cs => if c.toLower = p.toLower then matchLitCI ps cs else none

/-- A `+`-quantified character class `p+`: consume the (maximal) non-empty
run of characters satisfying `p`, returning the run and the rest. -/
def reqRun (p : Char → Bool) (cs : Str) : Option (Str × Str) :=
  if cs.takeWhile p = [] then none else some (cs.takeWhile p, cs.dropWhile p)

/-- `\d{4}`: exactly four digit characters. -/
def year4 : Str → Option (Str × Str)
  | y1 :: y2 :: y3 :: y4 :: r =>
    if isDigitChar y1 && isDigitChar y2 && isDigitChar y3 && isDigitChar y4 then
      some ([y1, y2, y3, y4], r)
    else none
  | _ => none

/-- `\d{4},`: four digits followed by a comma. -/
def yearComma (cs : Str) : Option (Str × Str) :=
  (year4 cs).bind fun yy =>
    match yy.2 with
    | ',' :: r => some (yy.1, r)
    | _ => none

/-- `\s*n\.` under `re.IGNORECASE`: optional whitespace, then `n` or `N`,
then a literal dot. -/
def litCINDot (cs : Str) : Option Str :=
  match cs.dropWhile isSpaceChar with
  | nc :: '.' :: r2 => if nc.toLower = 'n' then some r2 else none
  | _ => none

/-- The literal of Strategy A's pattern. -/
def dlLit : Str := "decreto-legge".toList

/-- One attempt of the pattern
`decreto-legge\s+(\d+\s+\w+\s+\d{4}),\s*n\.\s*(\d+)` (with
`re.IGNORECASE`, src/matching.py lines 58-61) at the current position.
Every quantifier is followed by a disjoint character class or literal, so
greedy backtracking equals maximal-munch.  Returns (group 1, group 2). -/
def matchDLAt (cs : Str) : Option (Str × Str) :=
  (matchLitCI dlLit cs).bind fun r1 =>
  (reqRun isSpaceChar r1).bind fun s1 =>
  (reqRun isDigitChar s1.2).bind fun dd =>
  (reqRun isSpaceChar dd.2).bind fun s2 =>
  (reqRun isWordChar s2.2).bind fun mm =>
  (reqRun isSpaceChar mm.2).bind fun s3 =>
  (yearComma s3.2).bind fun yy =>
  (litCINDot yy.2).bind fun r9 =>
  (reqRun isDigitChar (r9.dropWhile isSpaceChar)).bind fun nn =>
  some (dd.1 ++ s2.1 ++ mm.1 ++ s3.1 ++ yy.1, nn.1)

/-- One attempt of the pattern `(\d+)\s+(\w+)\s+(\d{4})`
(src/matching.py line 76) at the current position.  Returns
(day, month name, year). -/
def matchDateAt (cs : Str) : Option (Str × Str × Str) :=
  (reqRun isDigitChar cs).bind fun dd =>
  (reqRun isSpaceChar dd.2).bind fun s1 =>
  (reqRun isWordChar s1.2).bind fun mm =>
  (reqRun isSpaceChar mm.2).bind fun s2 =>
  (year4 s2.2).bind fun yy =>
  some (dd.1, mm.1, yy.1)

/-- `re.search`: try the pattern at every start position from the left;
the leftmost successful position wins (the empty suffix is tried last). -/
def reSearch {α : Type} (t : Str → Option α) : Str → Option α
  | [] => t []
  | c :: cs =>
    match t (c :: cs) with
    | some r => some r
    | none => reSearch t cs

/-- The record returned by `extract_decreto_legge_ref`
(src/matching.py line 63). -/
structure DLRef where
  data_str : Str
  numero : Str
deriving DecidableEq

/-- `extract_decreto_legge_ref` (src/matching.py lines 52-64). -/
def extract_decreto_legge_ref (text : Str) : Option DLRef :=
  (reSearch matchDLAt text).map (fun g => ⟨g.1, g.2⟩)

/-- The fixed 12-entry Italian month table `MESI`
(src/matching.py lines 72-74). -/
def MESI : List (Str × Str) :=
  [("gennaio".toList, "01".toList), ("febbraio".toList, "02".toList),
   ("marzo".toList, "03".toList), ("aprile".toList, "04".toList),
   ("maggio".toList, "05".toList), ("giugno".toList, "06".toList),
   ("luglio".toList, "07".toList), ("agosto".toList, "08".toList),
   ("settembre".toList, "09".toList), ("ottobre".toList, "10".toList),
   ("novembre".toList, "11".toList), ("dicembre".toList, "12".toList)]

/-- `MESI.get(month_name)`. -/
def mesiLookup (k : Str) : Option Str := MESI.lookup k

/-- Python `int` on a digit string. -/
def natOfDigits (d : Str) : Nat :=
  d.foldl (fun n c => n * 10 + (c.toNat - '0'.toNat)) 0

/-- Python `f"{k:02d}"` for a non-negative `k`: decimal digits, zero-padded
to at least two characters. -/
def pad2 (k : Nat) : Str :=
  if k < 10 then '0' :: Nat.toDigits 10 k else Nat.toDigits 10 k

/-- `extract_law_date` (src/matching.py lines 67-82): find the first
`(\d+)\s+(\w+)\s+(\d{4})` match in the titolo, look the lowercased month
name up in `MESI`, and return `f"{year}{month}{int(day):02d}"`; `None`
when there is no match or the month name is unknown. -/
def extract_law_date (titolo : Str) : Option Str :=
  match reSearch matchDateAt titolo with
  | none => none
  | some g =>
    match mesiLookup (g.2.1.map Char.toLower) with
    | none => none
    | some month => some (g.2.2 ++ month ++ pad2 (natOfDigits g.1))

/-- Error value carried by a raised Python exception. -/
abbrev Err := Str

/-- `MatchResult`: the record built by `match_norm`
(src/matching.py lines 201-211); `codice`/`dataGU` echo fields are
omitted, the matching-relevant fields are kept. -/
structure MatchResult where
  titolo : Str
  dl_ref : Option DLRef
  law_date : Option Str
  strategy_a : List Hit
  strategy_b : List Hit
  matched : List Hit
  confidence : Str
deriving DecidableEq

/-- `match_norm` (src/matching.py lines 169-211) with its network
collaborators as parameters: `detail` is the result of
`get_normattiva_detail` (the titolo and sottoTitolo fields), `queryA` is
`camera_search_by_dl_ref` and `queryB` is `camera_search_by_date`, both
already composed with the SPARQL transport.  There is no `try/except` in
the source, so a raised exception propagates through the `Except` monad. -/
def match_norm (unescape : Str → Str)
    (detail : Except Err (Str × Str))
    (queryA : Str → Except Err (List Hit))
    (queryB : Str → Except Err (List Hit)) :
    Except Err MatchResult := do
  let ts ← detail
  let titolo := ts.1
  let sotto_titolo := pyStrip ts.2
  let dl_ref := extract_decreto_legge_ref sotto_titolo
  let law_date := extract_law_date titolo
  let hits_a ← match dl_ref with
    | some r => (queryA r.numero).map flatten_hits
    | none => pure []
  let hits_b ← match law_date with
    | some d => (queryB d).map flatten_hits
    | none => pure []
  let mc := matchCore unescape sotto_titolo hits_a hits_b
  pure { titolo := titolo, dl_ref := dl_ref, law_date := law_date,
         strategy_a := hits_a, strategy_b := hits_b,
         matched := mc.1, confidence := mc.2 }

/-- The ordered instrument-type list of `classify_norm_type`
(src/matching.py lines 216-218). -/
def NORM_TYPES : List Str :=
  ["LEGGE".toList, "DECRETO LEGISLATIVO".toList, "DECRETO-LEGGE".toList,
   "DECRETO DEL PRESIDENTE DELLA REPUBBLICA".toList,
   "DECRETO DEL PRESIDENTE DEL CONSIGLIO DEI MINISTRI".toList,
   "DECRETO".toList]

/-- `classify_norm_type` (src/matching.py lines 214-221).  The Python
`for` loop over the literal 6-tuple, returning the first type string the
description `startswith`, unrolled into the corresponding conditionals. -/
def classify_norm_type (descrizione : Str) : Str :=
  if ("LEGGE".toList).isPrefixOf descrizione then "LEGGE".toList
  else if ("DECRETO LEGISLATIVO".toList).isPrefixOf descrizione then
    "DECRETO LEGISLATIVO".toList
  else if ("DECRETO-LEGGE".toList).isPrefixOf descrizione then
    "DECRETO-LEGGE".toList
  else if ("DECRETO DEL PRESIDENTE DELLA REPUBBLICA".toList).isPrefixOf descrizione then
    "DECRETO DEL PRESIDENTE DELLA REPUBBLICA".toList
  else if ("DECRETO DEL PRESIDENTE DEL CONSIGLIO DEI MINISTRI".toList).isPrefixOf descrizione then
    "DECRETO DEL PRESIDENTE DEL CONSIGLIO DEI MINISTRI".toList
  else if ("DECRETO".toList).isPrefixOf descrizione then "DECRETO".toList
  else "ALTRO".toList

/-- `CAMERA_TYPES` (src/matching.py line 40). -/
def CAMERA_TYPES : List Str := ["LEGGE".toList]

/-- One entry of the Normattiva `listaAtti` as used by `main`
(src/matching.py lines 260-283). -/
structure NormRec where
  codiceRedazionale : Str
  dataGU : Str
  descrizioneAtto : Str
deriving DecidableEq

/-- Target selection in `main` (src/matching.py lines 260-265): filter to
norms whose `dataGU` starts with the requested month and whose type is in
`CAMERA_TYPES`, then `targets.sort(key=dataGU)`.  Python `list.sort` is a
stable sort, as is `List.mergeSort`, so the two compute the same list. -/
def selectTargets (monthPref : Str) (all_norms : List NormRec) : List NormRec :=
  (all_norms.filter (fun a =>
      decide (monthPref <+: a.dataGU) &&
      decide (classify_norm_type a.descrizioneAtto ∈ CAMERA_TYPES))).mergeSort
    (fun x y => decide (x.dataGU ≤ y.dataGU))

/-- The per-record loop of `main` (src/matching.py lines 275-283): each
retained norm is matched in order and its result appended; an exception
raised inside `match_norm` propagates and aborts the loop (there is no
`try/except` in `main`). -/
def runBatch (unescape : Str → Str)
    (detailOf : NormRec → Except Err (Str × Str))
    (queryA queryB : Str → Except Err (List Hit))
    (targets : List NormRec) : Except Err (List MatchResult) :=
  targets.mapM (fun t => match_norm unescape (detailOf t) queryA queryB)

/-- `main`'s batch over a month (src/matching.py lines 250-283): select
the targets, then run the per-record pipeline over them. -/
def mainBatch (unescape : Str → Str)
    (detailOf : NormRec → Except Err (Str × Str))
    (queryA queryB : Str → Except Err (List Hit))
    (monthPref : Str) (all_norms : List NormRec) : Except Err (List MatchResult) :=
  runBatch unescape detailOf queryA queryB (selectTargets monthPref all_norms)

/-- `l` is empty or its head fails `p`. -/
def headNot (p : Char → Bool) (l : Str) : Prop :=
  ∀ c, l.head? = some c → p c = false

/-- A decomposition of a string as the claim's decreto-legge phrase:
the literal "decreto-legge" (case-insensitive), spaces, day digits,
spaces, a month word, spaces, four year digits, a comma, optional spaces,
`n`/`N`, a dot, optional spaces, decree-number digits, and a remainder. -/
structure DLParts where
  lit : Str
  sp1 : Str
  d : Str
  sp2 : Str
  m : Str
  sp3 : Str
  y : Str
  sp4 : Str
  nc : Char
  sp5 : Str
  n : Str
  rest : Str

/-- Reassemble the phrase decomposition into the full string. -/
def DLParts.assemble (P : DLParts) : Str :=
  P.lit ++ P.sp1 ++ P.d ++ P.sp2 ++ P.m ++ P.sp3 ++ P.y ++ [','] ++
    P.sp4 ++ [P.nc, '.'] ++ P.sp5 ++ P.n ++ P.rest

/-- Well-formedness of a decreto-legge phrase decomposition. -/
def DLParts.OK (P : DLParts) : Prop :=
  P.lit.map Char.toLower = dlLit.map Char.toLower ∧
  P.sp1 ≠ [] ∧ (∀ c ∈ P.sp1, isSpaceChar c = true) ∧
  P.d ≠ [] ∧ (∀ c ∈ P.d, isDigitChar c = true) ∧
  P.sp2 ≠ [] ∧ (∀ c ∈ P.sp2, isSpaceChar c = true) ∧
  P.m ≠ [] ∧ (∀ c ∈ P.m, isWordChar c = true) ∧
  P.sp3 ≠ [] ∧ (∀ c ∈ P.sp3, isSpaceChar c = true) ∧
  P.y.length = 4 ∧ (∀ c ∈ P.y, isDigitChar c = true) ∧
  (∀ c ∈ P.sp4, isSpaceChar c = true) ∧
  P.nc.toLower = 'n' ∧
  (∀ c ∈ P.sp5, isSpaceChar c = true) ∧
  P.n ≠ [] ∧ (∀ c ∈ P.n, isDigitChar c = true)

/-- The string begins with a decreto-legge phrase. -/
def IsDLPhrase (cs : Str) : Prop :=
  ∃ P : DLParts, P.OK ∧ cs = P.assemble

/-- A decomposition of a string as the claim's date shape
`D MESE YYYY`: day digits, spaces, a month word, spaces, four year
digits, and a remainder. -/
structure DateParts where
  d : Str
  sp1 : Str
  m : Str
  sp2 : Str
  y : Str
  rest : Str

/-- Reassemble the date decomposition into the full string. -/
def DateParts.assemble (Q : DateParts) : Str :=
  Q.d ++ Q.sp1 ++ Q.m ++ Q.sp2 ++ Q.y ++ Q.rest

/-- Well-formedness of a date-shape decomposition. -/
def DateParts.OK (Q : DateParts) : Prop :=
  Q.d ≠ [] ∧ (∀ c ∈ Q.d, isDigitChar c = true) ∧
  Q.sp1 ≠ [] ∧ (∀ c ∈ Q.sp1, isSpaceChar c = true) ∧
  Q.m ≠ [] ∧ (∀ c ∈ Q.m, isWordChar c = true) ∧
  Q.sp2 ≠ [] ∧ (∀ c ∈ Q.sp2, isSpaceChar c = true) ∧
  Q.y.length = 4 ∧ (∀ c ∈ Q.y, isDigitChar c = true)

/-- The string begins with a `D MESE YYYY` date shape. -/
def IsDateShape (cs : Str) : Prop :=
  ∃ Q : DateParts, Q.OK ∧ cs = Q.assemble

/-- Sample hit with URI "U1" (for witnesses and counterexamples). -/
def hU1 : Hit :=
  ⟨"U1".toList, "100".toList, "conversione del decreto-legge n. 145".toList,
   "legge".toList, "20251128".toList⟩

/-- Sample hit with URI "U2", disjoint from `hU1`. -/
def hU2 : Hit :=
  ⟨"U2".toList, "200".toList, "bilancio dello stato".toList,
   "legge".toList, "20251128".toList⟩

/-- Sample subtitle containing a decreto-legge reference. -/
def dlSample : Str := "decreto-legge 3 ottobre 2025, n. 145".toList

/-- Title whose first `\d+ \w+ \d{4}` match has an unknown month name,
while a later substring is a valid table-month date. -/
def badTitle : Str := "1 xyz 2020 2 marzo 2021".toList

/-- Sample titolo of a law. -/
def lawTitle : Str := "LEGGE 18 novembre 2025, n. 173".toList

/-- A norm published earlier in the month. -/
def normEarly : NormRec :=
  ⟨"25G00101".toList, "2025-03-10".toList, "LEGGE 10 marzo 2025".toList⟩

/-- A norm published later in the month. -/
def normLate : NormRec :=
  ⟨"25G00102".toList, "2025-03-20".toList, "LEGGE 20 marzo 2025".toList⟩

/-- The detail returned for every sample norm: a conversion-law titolo and
a sottoTitolo with a decreto-legge reference. -/
def detailConv : NormRec → Except Err (Str × Str) := fun _ =>
  .ok (lawTitle, ("Conversione in legge del ".toList ++ dlSample))

/-- The error raised by a failing registry query. -/
def errNetwork : Err := "network error".toList

/-! ## Theorems -/

/-- C2: the Combiner's defining equations: `combine [] [] = []`;
`combine A [] = A`; `combine [] B = B`; and for non-empty `A`, `B`,
`combine A B` is exactly the sublist of `A` of hits whose `atto` URI also
occurs in `B`, in `A`'s order. -/
theorem combine_cases :
    combine [] [] = [] ∧
    (∀ A : List Hit, combine A [] = A) ∧
    (∀ B : List Hit, combine [] B = B) ∧
    (∀ A B : List Hit, A ≠ [] → B ≠ [] →
      combine A B = A.filter (fun h => decide (h.atto ∈ B.map Hit.atto))) := by
  refine ⟨rfl, ?_, ?_, ?_⟩
  · intro A
    cases A with
    | nil => rfl
    | cons a as => simp [combine]
  · intro B
    cases B with
    | nil => rfl
    | cons b bs => simp [combine]
  · intro A B hA hB
    simp [combine, hA, hB, intersect]

/-- Witness for `combine_cases` at concrete non-empty lists. -/
theorem combine_cases_witness :
    combine [hU1] [hU2] =
      [hU1].filter (fun h => decide (h.atto ∈ [hU2].map Hit.atto)) :=
  combine_cases.2.2.2 [hU1] [hU2] (by decide) (by decide)

/-- C1 counterexample: both sources non-empty with disjoint `atto` sets.
The code takes the intersection, which is empty, and classifies
`no_match`; it does not fall back to Source A's set. -/
theorem combine_disjoint_counterexample :
    hU1.atto ≠ hU2.atto ∧
    combine [hU1] [hU2] = [] ∧
    combine [hU1] [hU2] ≠ [hU1] ∧
    classify (combine [hU1] [hU2]) = "no_match".toList ∧
    classify (combine [hU1] [hU2]) ≠ "exact".toList := by
  refine ⟨by decide, by decide, by decide, by decide, by decide⟩

/-- C1 amended: when Source A and Source B both return non-empty candidate
lists with disjoint `atto` sets, the Combiner returns the (empty)
intersection and the classification is `no_match`; the fallback to a
single source's set happens only when the other source is empty. -/
theorem combine_disjoint_amended (A B : List Hit) (hA : A ≠ []) (hB : B ≠ [])
    (hdisj : ∀ a ∈ A, ∀ b ∈ B, a.atto ≠ b.atto) :
    combine A B = [] ∧ classify (combine A B) = "no_match".toList := by
  have hemp : combine A B = [] := by
    simp only [combine, if_pos (And.intro hA hB), intersect]
    refine List.filter_eq_nil_iff.mpr ?_
    intro a ha
    simp only [decide_eq_true_eq, List.mem_map]
    rintro ⟨b, hb, hab⟩
    exact hdisj a ha b hb hab.symm
  refine ⟨hemp, ?_⟩
  rw [hemp]
  rfl

/-- Witness for `combine_disjoint_amended` at concrete disjoint lists. -/
theorem combine_disjoint_amended_witness :
    combine [hU1] [hU2] = [] ∧
    classify (combine [hU1] [hU2]) = "no_match".toList :=
  combine_disjoint_amended [hU1] [hU2] (by decide) (by decide) (by decide)

/-- C3: the Confidence Classifier is a pure function of the candidate-list
length: 0 ↦ `no_match`, 1 ↦ `exact`, ≥ 2 ↦ `ambiguous`, no other value is
ever produced, and lists of equal length classify identically. -/
theorem classify_card (l : List Hit) :
    (l.length = 0 → classify l = "no_match".toList) ∧
    (l.length = 1 → classify l = "exact".toList) ∧
    (2 ≤ l.length → classify l = "ambiguous".toList) ∧
    (classify l = "exact".toList ∨ classify l = "ambiguous".toList ∨
      classify l = "no_match".toList) ∧
    (∀ l' : List Hit, l.length = l'.length → classify l = classify l') := by
  refine ⟨?_, ?_, ?_, ?_, ?_⟩
  · intro h0
    simp [classify, h0]
  · intro h1
    simp [classify, h1]
  · intro h2
    have h1 : l.length ≠ 1 := by omega
    have hgt : l.length > 1 := by omega
    simp [classify, h1, hgt]
  · by_cases h1 : l.length = 1
    · left; simp [classify, h1]
    · by_cases hgt : l.length > 1
      · right; left; simp [classify, h1, hgt]
      · right; right; simp [classify, h1, hgt]
  · intro l' hlen
    simp [classify, hlen]

/-- Witness for `classify_card` at a concrete one-element list. -/
theorem classify_card_witness : classify [hU1] = "exact".toList :=
  (classify_card [hU1]).2.1 rfl

/-! ### Helper lemmas for the regex embeddings -/

theorem space_char_cases {c : Char} (h : isSpaceChar c = true) :
    c = ' ' ∨ c = '\t' ∨ c = '\n' ∨ c = '\r' ∨ c = '\x0b' ∨ c = '\x0c' := by
  simp only [isSpaceChar, Bool.or_eq_true, beq_iff_eq] at h
  tauto

theorem space_not_digit {c : Char} (h : isSpaceChar c = true) :
    isDigitChar c = false := by
  rcases space_char_cases h with rfl | rfl | rfl | rfl | rfl | rfl <;> decide

theorem space_not_word {c : Char} (h : isSpaceChar c = true) :
    isWordChar c = false := by
  rcases space_char_cases h with rfl | rfl | rfl | rfl | rfl | rfl <;> decide

theorem space_not_lower_n {c : Char} (h : isSpaceChar c = true) :
    c.toLower ≠ 'n' := by
  rcases space_char_cases h with rfl | rfl | rfl | rfl | rfl | rfl <;> decide

theorem digit_not_space {c : Char} (h : isDigitChar c = true) :
    isSpaceChar c = false := by
  cases hs : isSpaceChar c
  · rfl
  · rw [space_not_digit hs] at h
    exact absurd h (by simp)

theorem word_not_space {c : Char} (h : isWordChar c = true) :
    isSpaceChar c = false := by
  cases hs : isSpaceChar c
  · rfl
  · rw [space_not_word hs] at h
    exact absurd h (by simp)

theorem lower_n_not_space {c : Char} (h : c.toLower = 'n') :
    isSpaceChar c = false := by
  cases hs : isSpaceChar c
  · rfl
  · exact absurd h (space_not_lower_n hs)

theorem digit_word {c : Char} (h : isDigitChar c = true) : isWordChar c = true := by
  simp only [isDigitChar] at h
  simp [isWordChar, Char.isAlphanum, h]

theorem headNot_nil (p : Char → Bool) : headNot p [] := by
  intro c hc
  simp at hc

theorem headNot_cons {p : Char → Bool} {c : Char} {l : Str} (h : p c = false) :
    headNot p (c :: l) := by
  intro x hx
  simp only [List.head?_cons, Option.some.injEq] at hx
  rw [← hx]
  exact h

theorem headNot_append_left {p q : Char → Bool} {x y : Str} (hx : x ≠ [])
    (hall : ∀ c ∈ x, q c = true) (himp : ∀ c, q c = true → p c = false) :
    headNot p (x ++ y) := by
  cases x with
  | nil => exact absurd rfl hx
  | cons c t =>
    rw [List.cons_append]
    exact headNot_cons (himp c (hall c (List.mem_cons_self c t)))

theorem takeWhile_append_all {p : Char → Bool} :
    ∀ (a : Str) {b : Str}, (∀ c ∈ a, p c = true) → headNot p b →
      (a ++ b).takeWhile p = a ∧ (a ++ b).dropWhile p = b := by
  intro a
  induction a with
  | nil =>
    intro b _ hb
    simp only [List.nil_append]
    cases b with
    | nil => exact ⟨rfl, rfl⟩
    | cons c t =>
      have hc : p c = false := hb c rfl
      constructor
      · simp [List.takeWhile_cons, hc]
      · simp [List.dropWhile_cons, hc]
  | cons c t ih =>
    intro b ha hb
    have hc : p c = true := ha c (List.mem_cons_self c t)
    have ht : ∀ x ∈ t, p x = true := fun x hx => ha x (List.mem_cons_of_mem c hx)
    obtain ⟨h1, h2⟩ := ih ht hb
    constructor
    · simp [List.cons_append, List.takeWhile_cons, hc, h1]
    · simp [List.cons_append, List.dropWhile_cons, hc, h2]

theorem headNot_dropWhile (p : Char → Bool) (l : Str) :
    headNot p (l.dropWhile p) := by
  induction l with
  | nil => exact headNot_nil p
  | cons c t ih =>
    cases hc : p c
    · simp only [List.dropWhile_cons, hc]
      exact headNot_cons hc
    · simp only [List.dropWhile_cons, hc]
      exact ih

theorem matchLitCI_complete :
    ∀ (lit a : Str) {b : Str}, a.map Char.toLower = lit.map Char.toLower →
      matchLitCI lit (a ++ b) = some b := by
  intro lit
  induction lit with
  | nil =>
    intro a b h
    simp only [List.map_nil] at h
    have : a = [] := by simpa using h
    subst this
    rfl
  | cons p ps ih =>
    intro a b h
    cases a with
    | nil => simp at h
    | cons c t =>
      simp only [List.map_cons, List.cons.injEq] at h
      simp only [List.cons_append, matchLitCI, h.1, if_pos]
      exact ih t h.2

theorem matchLitCI_sound :
    ∀ (lit cs r : Str), matchLitCI lit cs = some r →
      ∃ a, cs = a ++ r ∧ a.map Char.toLower = lit.map Char.toLower := by
  intro lit
  induction lit with
  | nil =>
    intro cs r h
    simp only [matchLitCI, Option.some.injEq] at h
    exact ⟨[], by simp [h], by simp⟩
  | cons p ps ih =>
    intro cs r h
    cases cs with
    | nil => simp [matchLitCI] at h
    | cons c t =>
      simp only [matchLitCI] at h
      split at h
      next heq =>
        obtain ⟨a, ha, hm⟩ := ih t r h
        exact ⟨c :: a, by simp [ha], by simp [hm, heq]⟩
      next => exact absurd h (by simp)

theorem reqRun_sound {p : Char → Bool} {cs : Str} {s : Str × Str}
    (h : reqRun p cs = some s) :
    s.1 ≠ [] ∧ (∀ c ∈ s.1, p c = true) ∧ cs = s.1 ++ s.2 ∧ headNot p s.2 := by
  simp only [reqRun] at h
  split at h
  · exact absurd h (by simp)
  next hne =>
    simp only [Option.some.injEq] at h
    subst h
    refine ⟨hne, ?_, ?_, ?_⟩
    · exact fun c hc => List.mem_takeWhile_imp hc
    · exact (List.takeWhile_append_dropWhile p cs).symm
    · exact headNot_dropWhile p cs

theorem reqRun_complete {p : Char → Bool} {a b : Str} (hne : a ≠ [])
    (ha : ∀ c ∈ a, p c = true) (hb : headNot p b) :
    reqRun p (a ++ b) = some (a, b) := by
  obtain ⟨h1, h2⟩ := takeWhile_append_all a ha hb
  simp [reqRun, h1, h2, hne]

theorem year4_sound {cs : Str} {s : Str × Str} (h : year4 cs = some s) :
    cs = s.1 ++ s.2 ∧ s.1.length = 4 ∧ (∀ c ∈ s.1, isDigitChar c = true) := by
  cases cs with
  | nil => simp [year4] at h
  | cons y1 t1 =>
  cases t1 with
  | nil => simp [year4] at h
  | cons y2 t2 =>
  cases t2 with
  | nil => simp [year4] at h
  | cons y3 t3 =>
  cases t3 with
  | nil => simp [year4] at h
  | cons y4 r =>
    simp only [year4] at h
    split at h
    next hd =>
      simp only [Option.some.injEq] at h
      subst h
      simp only [Bool.and_eq_true] at hd
      refine ⟨rfl, rfl, ?_⟩
      intro c hc
      rcases List.mem_cons.mp hc with rfl | hc
      · exact hd.1.1.1
      rcases List.mem_cons.mp hc with rfl | hc
      · exact hd.1.1.2
      rcases List.mem_cons.mp hc with rfl | hc
      · exact hd.1.2
      rcases List.mem_cons.mp hc with rfl | hc
      · exact hd.2
      · simp at hc
    next => exact absurd h (by simp)

theorem year4_complete {y r : Str} (hlen : y.length = 4)
    (hall : ∀ c ∈ y, isDigitChar c = true) :
    year4 (y ++ r) = some (y, r) := by
  cases y with
  | nil => simp at hlen
  | cons y1 t1 =>
  cases t1 with
  | nil => simp at hlen
  | cons y2 t2 =>
  cases t2 with
  | nil => simp at hlen
  | cons y3 t3 =>
  cases t3 with
  | nil => simp at hlen
  | cons y4 t4 =>
  cases t4 with
  | cons y5 t5 =>
    simp only [List.length_cons] at hlen
    omega
  | nil =>
    have h1 := hall y1 (by simp)
    have h2 := hall y2 (by simp)
    have h3 := hall y3 (by simp)
    have h4 := hall y4 (by simp)
    simp [year4, h1, h2, h3, h4]

theorem yearComma_sound {cs : Str} {s : Str × Str} (h : yearComma cs = some s) :
    cs = s.1 ++ ',' :: s.2 ∧ s.1.length = 4 ∧ (∀ c ∈ s.1, isDigitChar c = true) := by
  simp only [yearComma, Option.bind_eq_some] at h
  obtain ⟨yy, hy, h⟩ := h
  obtain ⟨hcs, hlen, hall⟩ := year4_sound hy
  split at h
  next r heq =>
    simp only [Option.some.injEq] at h
    subst h
    rw [heq] at hcs
    exact ⟨hcs, hlen, hall⟩
  next => exact absurd h (by simp)

theorem yearComma_complete {y r : Str} (hlen : y.length = 4)
    (hall : ∀ c ∈ y, isDigitChar c = true) :
    yearComma (y ++ ',' :: r) = some (y, r) := by
  have h4 : year4 (y ++ ',' :: r) = some (y, ',' :: r) := year4_complete hlen hall
  unfold yearComma
  rw [h4]
  rfl

theorem litCINDot_sound {cs r : Str} (h : litCINDot cs = some r) :
    ∃ sp nc, (∀ c ∈ sp, isSpaceChar c = true) ∧ nc.toLower = 'n' ∧
      cs = sp ++ nc :: '.' :: r := by
  simp only [litCINDot] at h
  split at h
  next nc r2 heq =>
    split at h
    next hn =>
      simp only [Option.some.injEq] at h
      subst h
      refine ⟨cs.takeWhile isSpaceChar, nc, ?_, hn, ?_⟩
      · exact fun c hc => List.mem_takeWhile_imp hc
      · conv_lhs => rw [← List.takeWhile_append_dropWhile isSpaceChar cs]
        rw [heq]
    next => exact absurd h (by simp)
  next => exact absurd h (by simp)

theorem litCINDot_complete {sp : Str} {nc : Char} {r : Str}
    (hsp : ∀ c ∈ sp, isSpaceChar c = true) (hnc : nc.toLower = 'n') :
    litCINDot (sp ++ nc :: '.' :: r) = some r := by
  have hd : (sp ++ nc :: '.' :: r).dropWhile isSpaceChar = nc :: '.' :: r :=
    (takeWhile_append_all sp hsp (headNot_cons (lower_n_not_space hnc))).2
  simp [litCINDot, hd, hnc]

theorem reSearch_some {α : Type} (t : Str → Option α) :
    ∀ (cs : Str) (r : α), reSearch t cs = some r →
      ∃ i, i ≤ cs.length ∧ t (cs.drop i) = some r ∧
        ∀ j, j < i → t (cs.drop j) = none := by
  intro cs
  induction cs with
  | nil =>
    intro r h
    exact ⟨0, by simp, h, by intro j hj; omega⟩
  | cons c cs ih =>
    intro r h
    simp only [reSearch] at h
    split at h
    next r' heq =>
      simp only [Option.some.injEq] at h
      subst h
      exact ⟨0, by simp, heq, by intro j hj; omega⟩
    next heq =>
      obtain ⟨i, hle, ht, hall⟩ := ih r h
      refine ⟨i + 1, by simpa using Nat.succ_le_succ hle, by simpa using ht, ?_⟩
      intro j hj
      cases j with
      | zero => simpa using heq
      | succ k =>
        have hk : k < i := by omega
        simpa using hall k hk

theorem reSearch_none_iff {α : Type} (t : Str → Option α) :
    ∀ cs : Str, reSearch t cs = none ↔ ∀ i, t (cs.drop i) = none := by
  intro cs
  induction cs with
  | nil =>
    constructor
    · intro h i
      simpa [List.drop_nil] using h
    · intro h
      simpa using h 0
  | cons c cs ih =>
    constructor
    · intro h i
      simp only [reSearch] at h
      split at h
      next heq => exact absurd h (by simp)
      next heq =>
        cases i with
        | zero => simpa using heq
        | succ k => simpa using ih.mp h k
    · intro h
      simp only [reSearch]
      split
      next r heq =>
        have h0 := h 0
        simp only [List.drop_zero] at h0
        rw [h0] at heq
        exact absurd heq (by simp)
      next heq =>
        exact ih.mpr (fun i => by simpa using h (i + 1))

theorem bind_isSome_step {α β : Type} {x : Option α} {f : α → Option β} {a : α}
    (hx : x = some a) (hf : (f a).isSome) : (x.bind f).isSome := by
  subst hx
  simpa using hf

theorem matchDLAt_sound {cs : Str} {g : Str × Str} (h : matchDLAt cs = some g) :
    ∃ P : DLParts, P.OK ∧ cs = P.assemble ∧
      g.1 = P.d ++ P.sp2 ++ P.m ++ P.sp3 ++ P.y ∧ g.2 = P.n ∧
      headNot isDigitChar P.rest := by
  simp only [matchDLAt, Option.bind_eq_some] at h
  obtain ⟨r1, hlit, h⟩ := h
  obtain ⟨s1, hs1, h⟩ := h
  obtain ⟨dd, hdd, h⟩ := h
  obtain ⟨s2, hs2, h⟩ := h
  obtain ⟨mm, hmm, h⟩ := h
  obtain ⟨s3, hs3, h⟩ := h
  obtain ⟨yy, hyy, h⟩ := h
  obtain ⟨r9, hnd, h⟩ := h
  obtain ⟨nn, hnn, h⟩ := h
  simp only [Option.some.injEq] at h
  subst h
  obtain ⟨lit, hcs, hlitm⟩ := matchLitCI_sound dlLit cs r1 hlit
  obtain ⟨hs1ne, hs1all, hr1, _⟩ := reqRun_sound hs1
  obtain ⟨hddne, hddall, hs12, _⟩ := reqRun_sound hdd
  obtain ⟨hs2ne, hs2all, hdd2, _⟩ := reqRun_sound hs2
  obtain ⟨hmmne, hmmall, hs22, _⟩ := reqRun_sound hmm
  obtain ⟨hs3ne, hs3all, hmm2, _⟩ := reqRun_sound hs3
  obtain ⟨hs32, hyylen, hyyall⟩ := yearComma_sound hyy
  obtain ⟨sp4, nc, hsp4, hnc, hyy2⟩ := litCINDot_sound hnd
  obtain ⟨hnnne, hnnall, hr9d, hrest⟩ := reqRun_sound hnn
  have hr9 : r9 = r9.takeWhile isSpaceChar ++ (nn.1 ++ nn.2) := by
    conv_lhs => rw [← List.takeWhile_append_dropWhile isSpaceChar r9]
    rw [hr9d]
  refine ⟨⟨lit, s1.1, dd.1, s2.1, mm.1, s3.1, yy.1, sp4, nc,
      r9.takeWhile isSpaceChar, nn.1, nn.2⟩, ?_, ?_, rfl, rfl, hrest⟩
  · exact ⟨hlitm, hs1ne, hs1all, hddne, hddall, hs2ne, hs2all, hmmne, hmmall,
      hs3ne, hs3all, hyylen, hyyall, hsp4, hnc,
      fun c hc => List.mem_takeWhile_imp hc, hnnne, hnnall⟩
  · simp only [DLParts.assemble]
    rw [hcs, hr1, hs12, hdd2, hs22, hmm2, hs32, hyy2]
    conv_lhs => rw [hr9]
    simp [List.append_assoc]

theorem matchDLAt_complete {P : DLParts} (hOK : P.OK) :
    (matchDLAt P.assemble).isSome := by
  obtain ⟨hlit, hsp1ne, hsp1, hdne, hd, hsp2ne, hsp2, hmne, hm, hsp3ne, hsp3,
    hylen, hy, hsp4, hnc, hsp5, hnne, hn⟩ := hOK
  have hyne : P.y ≠ [] := by
    intro hh
    rw [hh] at hylen
    simp at hylen
  have e0 : P.assemble = P.lit ++ (P.sp1 ++ (P.d ++ (P.sp2 ++ (P.m ++ (P.sp3 ++
      (P.y ++ ',' :: (P.sp4 ++ P.nc :: '.' :: (P.sp5 ++ (P.n ++ P.rest))))))))) := by
    simp [DLParts.assemble, List.append_assoc]
  unfold matchDLAt
  rw [e0]
  apply bind_isSome_step (matchLitCI_complete dlLit P.lit hlit)
  dsimp only
  apply bind_isSome_step (reqRun_complete hsp1ne hsp1
    (headNot_append_left hdne hd (fun c hc => digit_not_space hc)))
  dsimp only
  apply bind_isSome_step (reqRun_complete hdne hd
    (headNot_append_left hsp2ne hsp2 (fun c hc => space_not_digit hc)))
  dsimp only
  apply bind_isSome_step (reqRun_complete hsp2ne hsp2
    (headNot_append_left hmne hm (fun c hc => word_not_space hc)))
  dsimp only
  apply bind_isSome_step (reqRun_complete hmne hm
    (headNot_append_left hsp3ne hsp3 (fun c hc => space_not_word hc)))
  dsimp only
  apply bind_isSome_step (reqRun_complete hsp3ne hsp3
    (headNot_append_left hyne hy (fun c hc => digit_not_space hc)))
  dsimp only
  apply bind_isSome_step (yearComma_complete hylen hy)
  dsimp only
  apply bind_isSome_step (litCINDot_complete hsp4 hnc)
  dsimp only
  have e9 : (P.sp5 ++ (P.n ++ P.rest)).dropWhile isSpaceChar = P.n ++ P.rest :=
    (takeWhile_append_all P.sp5 hsp5
      (headNot_append_left hnne hn (fun c hc => digit_not_space hc))).2
  rw [e9]
  have e10 : (reqRun isDigitChar (P.n ++ P.rest)).isSome := by
    cases hnl : P.n with
    | nil => exact absurd hnl hnne
    | cons c t =>
      have hc : isDigitChar c = true := hn c (by rw [hnl]; simp)
      simp [reqRun, List.cons_append, List.takeWhile_cons, hc]
  obtain ⟨v, hv⟩ := Option.isSome_iff_exists.mp e10
  apply bind_isSome_step hv
  rfl

theorem matchDateAt_sound {cs : Str} {g : Str × Str × Str}
    (h : matchDateAt cs = some g) :
    ∃ Q : DateParts, Q.OK ∧ cs = Q.assemble ∧
      g.1 = Q.d ∧ g.2.1 = Q.m ∧ g.2.2 = Q.y := by
  simp only [matchDateAt, Option.bind_eq_some] at h
  obtain ⟨dd, hdd, h⟩ := h
  obtain ⟨s1, hs1, h⟩ := h
  obtain ⟨mm, hmm, h⟩ := h
  obtain ⟨s2, hs2, h⟩ := h
  obtain ⟨yy, hyy, h⟩ := h
  simp only [Option.some.injEq] at h
  subst h
  obtain ⟨hddne, hddall, hcs, _⟩ := reqRun_sound hdd
  obtain ⟨hs1ne, hs1all, hdd2, _⟩ := reqRun_sound hs1
  obtain ⟨hmmne, hmmall, hs12, _⟩ := reqRun_sound hmm
  obtain ⟨hs2ne, hs2all, hmm2, _⟩ := reqRun_sound hs2
  obtain ⟨hs22, hyylen, hyyall⟩ := year4_sound hyy
  refine ⟨⟨dd.1, s1.1, mm.1, s2.1, yy.1, yy.2⟩,
    ⟨hddne, hddall, hs1ne, hs1all, hmmne, hmmall, hs2ne, hs2all, hyylen, hyyall⟩,
    ?_, rfl, rfl, rfl⟩
  simp only [DateParts.assemble]
  rw [hcs, hdd2, hs12, hmm2, hs22]
  simp [List.append_assoc]

theorem matchDateAt_complete {Q : DateParts} (hOK : Q.OK) :
    (matchDateAt Q.assemble).isSome := by
  obtain ⟨hdne, hd, hsp1ne, hsp1, hmne, hm, hsp2ne, hsp2, hylen, hy⟩ := hOK
  have hyne : Q.y ≠ [] := by
    intro hh
    rw [hh] at hylen
    simp at hylen
  have e0 : Q.assemble = Q.d ++ (Q.sp1 ++ (Q.m ++ (Q.sp2 ++ (Q.y ++ Q.rest)))) := by
    simp [DateParts.assemble, List.append_assoc]
  unfold matchDateAt
  rw [e0]
  apply bind_isSome_step (reqRun_complete hdne hd
    (headNot_append_left hsp1ne hsp1 (fun c hc => space_not_digit hc)))
  dsimp only
  apply bind_isSome_step (reqRun_complete hsp1ne hsp1
    (headNot_append_left hmne hm (fun c hc => word_not_space hc)))
  dsimp only
  apply bind_isSome_step (reqRun_complete hmne hm
    (headNot_append_left hsp2ne hsp2 (fun c hc => space_not_word hc)))
  dsimp only
  apply bind_isSome_step (reqRun_complete hsp2ne hsp2
    (headNot_append_left hyne hy (fun c hc => digit_not_space hc)))
  dsimp only
  apply bind_isSome_step (year4_complete hylen hy)
  rfl

/-- C4: for every text containing the phrase
"decreto-legge D MESE YYYY, n. N" (matched case-insensitively),
`extract_decreto_legge_ref` returns the record built from the first such
occurrence, with `data_str = "D MESE YYYY"` and `numero = "N"`; for every
text not containing the phrase it returns `none`; whenever the result is
present both fields are non-empty. -/
theorem extract_dl_ref_spec (text : Str) :
    (∀ r : DLRef, extract_decreto_legge_ref text = some r →
      r.data_str ≠ [] ∧ r.numero ≠ [] ∧
      ∃ i, i ≤ text.length ∧ (∀ j, j < i → ¬ IsDLPhrase (text.drop j)) ∧
        ∃ P : DLParts, P.OK ∧ text.drop i = P.assemble ∧
          r.data_str = P.d ++ P.sp2 ++ P.m ++ P.sp3 ++ P.y ∧
          r.numero = P.n ∧ headNot isDigitChar P.rest) ∧
    (extract_decreto_legge_ref text = none ↔ ∀ i, ¬ IsDLPhrase (text.drop i)) := by
  constructor
  · intro r hr
    simp only [extract_decreto_legge_ref, Option.map_eq_some'] at hr
    obtain ⟨g, hg, hrg⟩ := hr
    obtain ⟨i, hle, ht, hnone⟩ := reSearch_some matchDLAt text g hg
    obtain ⟨P, hPOK, hPdrop, hg1, hg2, hrest⟩ := matchDLAt_sound ht
    subst hrg
    have hfirst : ∀ j, j < i → ¬ IsDLPhrase (text.drop j) := by
      intro j hj hphrase
      obtain ⟨Q, hQOK, hQ⟩ := hphrase
      have hs := matchDLAt_complete hQOK
      rw [← hQ, hnone j hj] at hs
      simp at hs
    refine ⟨?_, ?_, i, hle, hfirst, P, hPOK, hPdrop, hg1, hg2, hrest⟩
    · show g.1 ≠ []
      rw [hg1]
      intro hcon
      exact hPOK.2.2.2.1
        ((List.append_eq_nil.mp ((List.append_eq_nil.mp ((List.append_eq_nil.mp
          ((List.append_eq_nil.mp hcon).1)).1)).1)).1)
    · show g.2 ≠ []
      rw [hg2]
      exact hPOK.2.2.2.2.2.2.2.2.2.2.2.2.2.2.2.2.1
  · constructor
    · intro h i hphrase
      obtain ⟨Q, hQOK, hQ⟩ := hphrase
      have hs := matchDLAt_complete hQOK
      simp only [extract_decreto_legge_ref, Option.map_eq_none'] at h
      rw [← hQ, (reSearch_none_iff matchDLAt text).mp h i] at hs
      simp at hs
    · intro h
      simp only [extract_decreto_legge_ref, Option.map_eq_none']
      rw [reSearch_none_iff]
      intro i
      cases hm : matchDLAt (text.drop i) with
      | none => rfl
      | some g =>
        obtain ⟨P, hPOK, hPdrop, _, _, _⟩ := matchDLAt_sound hm
        exact absurd ⟨P, hPOK, hPdrop⟩ (h i)

/-- Witness for `extract_dl_ref_spec` at a concrete subtitle. -/
theorem extract_dl_ref_spec_witness :
    ("3 ottobre 2025".toList ≠ ([] : Str)) ∧ ("145".toList ≠ ([] : Str)) ∧
    ∃ i, i ≤ dlSample.length ∧ (∀ j, j < i → ¬ IsDLPhrase (dlSample.drop j)) ∧
      ∃ P : DLParts, P.OK ∧ dlSample.drop i = P.assemble ∧
        "3 ottobre 2025".toList = P.d ++ P.sp2 ++ P.m ++ P.sp3 ++ P.y ∧
        "145".toList = P.n ∧ headNot isDigitChar P.rest :=
  (extract_dl_ref_spec dlSample).1 ⟨"3 ottobre 2025".toList, "145".toList⟩
    (by decide)

/-- C5 counterexample: `badTitle` contains the substring "2 marzo 2021",
whose month is in the fixed table, yet `extract_law_date` returns `none`,
because the leftmost `(\d+)\s+(\w+)\s+(\d{4})` match is "1 xyz 2020" and
its month name is unknown — the code never looks past the first match. -/
theorem extract_law_date_counterexample :
    extract_law_date badTitle = none ∧
    ∃ i, ∃ Q : DateParts, Q.OK ∧ badTitle.drop i = Q.assemble ∧
      mesiLookup (Q.m.map Char.toLower) = some ("03".toList) := by
  refine ⟨by decide, 11, ⟨"2".toList, " ".toList, "marzo".toList, " ".toList,
    "2021".toList, []⟩, ?_, by decide, by decide⟩
  unfold DateParts.OK
  decide

/-- C5 amended: `extract_law_date` inspects only the first (leftmost)
`(\d+)\s+(\w+)\s+(\d{4})` match of the title.  When that match's
lowercased month name is in the `MESI` table, the result is
year ++ month-number ++ day (the day decimal-formatted, zero-padded to at
least two digits); otherwise the result is absent — even if a later
date-shaped substring has a known month — and absent is also returned
when no date shape occurs at all. -/
theorem extract_law_date_spec (t : Str) :
    (∀ s : Str, extract_law_date t = some s →
      ∃ i, i ≤ t.length ∧ (∀ j, j < i → ¬ IsDateShape (t.drop j)) ∧
        ∃ Q : DateParts, Q.OK ∧ t.drop i = Q.assemble ∧
          ∃ month, mesiLookup (Q.m.map Char.toLower) = some month ∧
            s = Q.y ++ month ++ pad2 (natOfDigits Q.d)) ∧
    (extract_law_date t = none →
      (∀ i, ¬ IsDateShape (t.drop i)) ∨
      ∃ i, (∀ j, j < i → ¬ IsDateShape (t.drop j)) ∧
        ∃ Q : DateParts, Q.OK ∧ t.drop i = Q.assemble ∧
          mesiLookup (Q.m.map Char.toLower) = none) := by
  constructor
  · intro s hs
    simp only [extract_law_date] at hs
    split at hs
    · exact absurd hs (by simp)
    next g hse =>
      split at hs
      · exact absurd hs (by simp)
      next month hml =>
        simp only [Option.some.injEq] at hs
        obtain ⟨i, hle, ht, hnone⟩ := reSearch_some matchDateAt t g hse
        obtain ⟨Q, hQOK, hQdrop, h1, h2, h3⟩ := matchDateAt_sound ht
        refine ⟨i, hle, ?_, Q, hQOK, hQdrop, month, ?_, ?_⟩
        · intro j hj hsh
          obtain ⟨R, hROK, hR⟩ := hsh
          have hss := matchDateAt_complete hROK
          rw [← hR, hnone j hj] at hss
          simp at hss
        · rw [← h2]
          exact hml
        · rw [← hs, ← h1, ← h3]
  · intro hnone
    simp only [extract_law_date] at hnone
    split at hnone
    next hse =>
      left
      intro i hsh
      obtain ⟨R, hROK, hR⟩ := hsh
      have hs := matchDateAt_complete hROK
      rw [← hR, (reSearch_none_iff matchDateAt t).mp hse i] at hs
      simp at hs
    next g hse =>
      right
      obtain ⟨i, hle, ht, hfirst⟩ := reSearch_some matchDateAt t g hse
      obtain ⟨Q, hQOK, hQdrop, h1, h2, h3⟩ := matchDateAt_sound ht
      refine ⟨i, ?_, Q, hQOK, hQdrop, ?_⟩
      · intro j hj hsh
        obtain ⟨R, hROK, hR⟩ := hsh
        have hs := matchDateAt_complete hROK
        rw [← hR, hfirst j hj] at hs
        simp at hs
      · split at hnone
        next hml =>
          rw [← h2]
          exact hml
        next month hml => exact absurd hnone (by simp)

/-- Witness for `extract_law_date_spec` at a concrete titolo. -/
theorem extract_law_date_spec_witness :
    ∃ i, i ≤ lawTitle.length ∧ (∀ j, j < i → ¬ IsDateShape (lawTitle.drop j)) ∧
      ∃ Q : DateParts, Q.OK ∧ lawTitle.drop i = Q.assemble ∧
        ∃ month, mesiLookup (Q.m.map Char.toLower) = some month ∧
          "20251118".toList = Q.y ++ month ++ pad2 (natOfDigits Q.d) :=
  (extract_law_date_spec lawTitle).1 ("20251118".toList) (by decide)

/-! ### pyMax and refine lemmas -/

theorem foldl_max_le_init : ∀ (l : List Nat) (a : Nat), a ≤ l.foldl Nat.max a := by
  intro l
  induction l with
  | nil => intro a; exact le_refl a
  | cons b t ih =>
    intro a
    simp only [List.foldl_cons]
    exact le_trans (Nat.le_max_left a b) (ih (Nat.max a b))

theorem le_foldl_max : ∀ (l : List Nat) (a x : Nat), x ∈ l → x ≤ l.foldl Nat.max a := by
  intro l
  induction l with
  | nil => intro a x hx; simp at hx
  | cons b t ih =>
    intro a x hx
    simp only [List.foldl_cons]
    rcases List.mem_cons.mp hx with rfl | hx
    · exact le_trans (Nat.le_max_right a x) (foldl_max_le_init t (Nat.max a x))
    · exact ih (Nat.max a b) x hx

theorem nat_max_choice (a b : Nat) : Nat.max a b = a ∨ Nat.max a b = b := by
  rcases Nat.le_total a b with h | h
  · right
    exact Nat.max_eq_right h
  · left
    exact Nat.max_eq_left h

theorem foldl_max_mem : ∀ (l : List Nat) (a : Nat),
    l.foldl Nat.max a = a ∨ l.foldl Nat.max a ∈ l := by
  intro l
  induction l with
  | nil => intro a; exact Or.inl rfl
  | cons b t ih =>
    intro a
    simp only [List.foldl_cons]
    rcases ih (Nat.max a b) with h | h
    · rcases nat_max_choice a b with hm | hm
      · left
        rw [hm] at h
        rw [hm]
        exact h
      · right
        rw [hm] at h
        rw [hm, h]
        exact List.mem_cons_self b t
    · exact Or.inr (List.mem_cons_of_mem b h)

theorem pyMax_mem {l : List Nat} (h : l ≠ []) : pyMax l ∈ l := by
  rcases foldl_max_mem l 0 with h0 | hm
  · cases l with
    | nil => exact absurd rfl h
    | cons b t =>
      have hb : b ≤ pyMax (b :: t) :=
        le_foldl_max (b :: t) 0 b (List.mem_cons_self b t)
      have hz : pyMax (b :: t) = 0 := h0
      rw [hz] at hb ⊢
      have hb0 : b = 0 := Nat.le_zero.mp hb
      rw [← hb0]
      exact List.mem_cons_self b t
  · exact hm

theorem pyMax_const {l : List Nat} {m : Nat} (hne : l ≠ [])
    (hall : ∀ x ∈ l, x = m) : pyMax l = m :=
  hall (pyMax l) (pyMax_mem hne)

theorem map_filter_score (f : Hit → Nat) (ms : Nat) :
    ∀ l : List Hit,
      ((l.map (fun c => (c, f c))).filter (fun p => decide (p.2 = ms))).map Prod.fst
        = l.filter (fun c => decide (f c = ms)) := by
  intro l
  induction l with
  | nil => rfl
  | cons c t ih =>
    simp only [List.map_cons, List.filter_cons]
    by_cases hc : f c = ms
    · simp [hc, ih]
    · simp [hc, ih]

theorem refine_eq_filter (u : Str → Str) (st : Str) (c : List Hit)
    (h : ¬ c.length ≤ 1) :
    refine_by_keywords u st c =
      c.filter (fun x => decide (scoreOf u st x = pyMax (c.map (scoreOf u st)))) := by
  unfold refine_by_keywords
  rw [if_neg h]
  dsimp only
  rw [List.map_map]
  have hcomp : (Prod.snd ∘ fun x : Hit => (x, scoreOf u st x)) = scoreOf u st := rfl
  rw [hcomp]
  exact map_filter_score (scoreOf u st) _ c

theorem refine_short (u : Str → Str) (st : Str) {l : List Hit}
    (h : l.length ≤ 1) : refine_by_keywords u st l = l := by
  unfold refine_by_keywords
  rw [if_pos h]

theorem refine_sublist (u : Str → Str) (st : Str) (c : List Hit) :
    (refine_by_keywords u st c).Sublist c := by
  by_cases h1 : c.length ≤ 1
  · rw [refine_short u st h1]
  · rw [refine_eq_filter u st c h1]
    exact List.filter_sublist c

theorem refine_ne_nil (u : Str → Str) (st : Str) {c : List Hit} (hc : c ≠ []) :
    refine_by_keywords u st c ≠ [] := by
  by_cases h1 : c.length ≤ 1
  · rw [refine_short u st h1]
    exact hc
  · rw [refine_eq_filter u st c h1]
    have hmapne : c.map (scoreOf u st) ≠ [] := by simpa using hc
    have hmem := pyMax_mem hmapne
    obtain ⟨x, hx, hfx⟩ := List.mem_map.mp hmem
    exact List.ne_nil_of_mem (List.mem_filter.mpr ⟨hx, decide_eq_true hfx⟩)

/-- C6: `refine_by_keywords` is idempotent: applying it a second time
(with the same subtitle) to its own output returns that output
unchanged. -/
theorem refine_idempotent (unescape : Str → Str) (st : Str) (c : List Hit) :
    refine_by_keywords unescape st (refine_by_keywords unescape st c) =
      refine_by_keywords unescape st c := by
  by_cases h1 : c.length ≤ 1
  · have hc : refine_by_keywords unescape st c = c := refine_short unescape st h1
    rw [hc, hc]
  · have hr := refine_eq_filter unescape st c h1
    by_cases h2 : (refine_by_keywords unescape st c).length ≤ 1
    · rw [refine_short unescape st h2]
    · have hall : ∀ x ∈ refine_by_keywords unescape st c,
          scoreOf unescape st x = pyMax (c.map (scoreOf unescape st)) := by
        intro x hx
        rw [hr] at hx
        exact of_decide_eq_true (List.mem_filter.mp hx).2
      have houtne : refine_by_keywords unescape st c ≠ [] := by
        intro hnil
        rw [hnil] at h2
        simp at h2
      have hmax : pyMax ((refine_by_keywords unescape st c).map (scoreOf unescape st))
          = pyMax (c.map (scoreOf unescape st)) := by
        apply pyMax_const
        · simpa using houtne
        · intro x hx
          obtain ⟨y, hy, rfl⟩ := List.mem_map.mp hx
          exact hall y hy
      rw [refine_eq_filter unescape st _ h2, hmax]
      apply List.filter_eq_self.mpr
      intro a ha
      exact decide_eq_true (hall a ha)

/-- C10: for every subtitle and every non-empty candidate list,
`refine_by_keywords` returns a non-empty sublist of its input (every
returned candidate is an input element, in input order); consequently the
disambiguation step inside `match_norm` never turns a non-empty combined
candidate set into an empty one, so a `no_match` confidence arises only
when the combined set was already empty before refinement. -/
theorem refine_preserves_nonempty (unescape : Str → Str) (st : Str) :
    (∀ c : List Hit, c ≠ [] →
      (refine_by_keywords unescape st c).Sublist c ∧
      refine_by_keywords unescape st c ≠ []) ∧
    (∀ hits_a hits_b : List Hit,
      (matchCore unescape st hits_a hits_b).2 = "no_match".toList →
      combine hits_a hits_b = []) := by
  constructor
  · intro c hc
    exact ⟨refine_sublist unescape st c, refine_ne_nil unescape st hc⟩
  · intro ha hb hnm
    by_contra hne
    have hm0ne : combine ha hb ≠ [] := hne
    have hm1ne : (if (combine ha hb).length > 1
        then refine_by_keywords unescape st (combine ha hb)
        else combine ha hb) ≠ [] := by
      split
      · exact refine_ne_nil unescape st hm0ne
      · exact hm0ne
    have hnm' : classify (if (combine ha hb).length > 1
        then refine_by_keywords unescape st (combine ha hb)
        else combine ha hb) = "no_match".toList := hnm
    generalize hgen : (if (combine ha hb).length > 1
        then refine_by_keywords unescape st (combine ha hb)
        else combine ha hb) = m1 at hm1ne hnm'
    have hlen0 : m1.length ≠ 0 := fun h0 => hm1ne (List.length_eq_zero.mp h0)
    unfold classify at hnm'
    split at hnm'
    next h1 => exact absurd hnm' (by decide)
    next h1 =>
      split at hnm'
      next h2 => exact absurd hnm' (by decide)
      next h2 => omega

/-- Witness for `refine_preserves_nonempty` at a concrete candidate
list. -/
theorem refine_preserves_nonempty_witness :
    (refine_by_keywords id ("conversione del decreto".toList)
        [hU1, hU2]).Sublist [hU1, hU2] ∧
    refine_by_keywords id ("conversione del decreto".toList) [hU1, hU2] ≠ [] :=
  (refine_preserves_nonempty id ("conversione del decreto".toList)).1
    [hU1, hU2] (by decide)

/-- Two prefixes of the same list are comparable; if neither is a prefix
of the other we have a contradiction. -/
theorem pfx_incomp {a b d : Str} (ha : a <+: d) (hb : b <+: d)
    (h1 : ¬ a <+: b) (h2 : ¬ b <+: a) : False :=
  (List.prefix_or_prefix_of_prefix ha hb).elim h1 h2

/-- C8: for every description, `classify_norm_type` returns the longest
element of the fixed instrument-type list that is a prefix of the
description — the result is in the list, is a prefix, and is at least as
long as every other list element that is a prefix — and returns "ALTRO"
when no element is a prefix. -/
theorem classify_norm_type_longest (descr : Str) :
    (∀ t ∈ NORM_TYPES, t <+: descr →
      classify_norm_type descr ∈ NORM_TYPES ∧
      classify_norm_type descr <+: descr ∧
      t.length ≤ (classify_norm_type descr).length) ∧
    ((∀ t ∈ NORM_TYPES, ¬ t <+: descr) →
      classify_norm_type descr = "ALTRO".toList) := by
  unfold classify_norm_type
  split_ifs with hL hDLgs hDLeg hDPR hDPCM hDec
  · have hp : "LEGGE".toList <+: descr := List.isPrefixOf_iff_prefix.mp hL
    constructor
    · intro t ht htp
      refine ⟨by simp [NORM_TYPES], hp, ?_⟩
      simp only [NORM_TYPES, List.mem_cons, List.not_mem_nil, or_false] at ht
      rcases ht with rfl | rfl | rfl | rfl | rfl | rfl
      · exact le_refl _
      · exact (pfx_incomp htp hp (by decide) (by decide)).elim
      · exact (pfx_incomp htp hp (by decide) (by decide)).elim
      · exact (pfx_incomp htp hp (by decide) (by decide)).elim
      · exact (pfx_incomp htp hp (by decide) (by decide)).elim
      · exact (pfx_incomp htp hp (by decide) (by decide)).elim
    · intro hno
      exact absurd hp (hno _ (by simp [NORM_TYPES]))
  · have hp : "DECRETO LEGISLATIVO".toList <+: descr :=
      List.isPrefixOf_iff_prefix.mp hDLgs
    constructor
    · intro t ht htp
      refine ⟨by simp [NORM_TYPES], hp, ?_⟩
      simp only [NORM_TYPES, List.mem_cons, List.not_mem_nil, or_false] at ht
      rcases ht with rfl | rfl | rfl | rfl | rfl | rfl
      · exact absurd (List.isPrefixOf_iff_prefix.mpr htp) hL
      · exact le_refl _
      · exact (pfx_incomp htp hp (by decide) (by decide)).elim
      · exact (pfx_incomp htp hp (by decide) (by decide)).elim
      · exact (pfx_incomp htp hp (by decide) (by decide)).elim
      · decide
    · intro hno
      exact absurd hp (hno _ (by simp [NORM_TYPES]))
  · have hp : "DECRETO-LEGGE".toList <+: descr :=
      List.isPrefixOf_iff_prefix.mp hDLeg
    constructor
    · intro t ht htp
      refine ⟨by simp [NORM_TYPES], hp, ?_⟩
      simp only [NORM_TYPES, List.mem_cons, List.not_mem_nil, or_false] at ht
      rcases ht with rfl | rfl | rfl | rfl | rfl | rfl
      · exact absurd (List.isPrefixOf_iff_prefix.mpr htp) hL
      · exact absurd (List.isPrefixOf_iff_prefix.mpr htp) hDLgs
      · exact le_refl _
      · exact (pfx_incomp htp hp (by decide) (by decide)).elim
      · exact (pfx_incomp htp hp (by decide) (by decide)).elim
      · decide
    · intro hno
      exact absurd hp (hno _ (by simp [NORM_TYPES]))
  · have hp : "DECRETO DEL PRESIDENTE DELLA REPUBBLICA".toList <+: descr :=
      List.isPrefixOf_iff_prefix.mp hDPR
    constructor
    · intro t ht htp
      refine ⟨by simp [NORM_TYPES], hp, ?_⟩
      simp only [NORM_TYPES, List.mem_cons, List.not_mem_nil, or_false] at ht
      rcases ht with rfl | rfl | rfl | rfl | rfl | rfl
      · exact absurd (List.isPrefixOf_iff_prefix.mpr htp) hL
      · exact absurd (List.isPrefixOf_iff_prefix.mpr htp) hDLgs
      · exact absurd (List.isPrefixOf_iff_prefix.mpr htp) hDLeg
      · exact le_refl _
      · exact (pfx_incomp htp hp (by decide) (by decide)).elim
      · decide
    · intro hno
      exact absurd hp (hno _ (by simp [NORM_TYPES]))
  · have hp : "DECRETO DEL PRESIDENTE DEL CONSIGLIO DEI MINISTRI".toList <+: descr :=
      List.isPrefixOf_iff_prefix.mp hDPCM
    constructor
    · intro t ht htp
      refine ⟨by simp [NORM_TYPES], hp, ?_⟩
      simp only [NORM_TYPES, List.mem_cons, List.not_mem_nil, or_false] at ht
      rcases ht with rfl | rfl | rfl | rfl | rfl | rfl
      · exact absurd (List.isPrefixOf_iff_prefix.mpr htp) hL
      · exact absurd (List.isPrefixOf_iff_prefix.mpr htp) hDLgs
      · exact absurd (List.isPrefixOf_iff_prefix.mpr htp) hDLeg
      · exact absurd (List.isPrefixOf_iff_prefix.mpr htp) hDPR
      · exact le_refl _
      · decide
    · intro hno
      exact absurd hp (hno _ (by simp [NORM_TYPES]))
  · have hp : "DECRETO".toList <+: descr := List.isPrefixOf_iff_prefix.mp hDec
    constructor
    · intro t ht htp
      refine ⟨by simp [NORM_TYPES], hp, ?_⟩
      simp only [NORM_TYPES, List.mem_cons, List.not_mem_nil, or_false] at ht
      rcases ht with rfl | rfl | rfl | rfl | rfl | rfl
      · exact (pfx_incomp htp hp (by decide) (by decide)).elim
      · exact absurd (List.isPrefixOf_iff_prefix.mpr htp) hDLgs
      · exact absurd (List.isPrefixOf_iff_prefix.mpr htp) hDLeg
      · exact absurd (List.isPrefixOf_iff_prefix.mpr htp) hDPR
      · exact absurd (List.isPrefixOf_iff_prefix.mpr htp) hDPCM
      · exact le_refl _
    · intro hno
      exact absurd hp (hno _ (by simp [NORM_TYPES]))
  · constructor
    · intro t ht htp
      simp only [NORM_TYPES, List.mem_cons, List.not_mem_nil, or_false] at ht
      rcases ht with rfl | rfl | rfl | rfl | rfl | rfl
      · exact absurd (List.isPrefixOf_iff_prefix.mpr htp) hL
      · exact absurd (List.isPrefixOf_iff_prefix.mpr htp) hDLgs
      · exact absurd (List.isPrefixOf_iff_prefix.mpr htp) hDLeg
      · exact absurd (List.isPrefixOf_iff_prefix.mpr htp) hDPR
      · exact absurd (List.isPrefixOf_iff_prefix.mpr htp) hDPCM
      · exact absurd (List.isPrefixOf_iff_prefix.mpr htp) hDec
    · intro _
      rfl

/-- Witness for `classify_norm_type_longest`: "DECRETO" and
"DECRETO LEGISLATIVO" both start the description; the longer one is
returned. -/
theorem classify_norm_type_longest_witness :
    classify_norm_type ("DECRETO LEGISLATIVO 15 marzo 2025, n. 33".toList) ∈
      NORM_TYPES ∧
    classify_norm_type ("DECRETO LEGISLATIVO 15 marzo 2025, n. 33".toList) <+:
      ("DECRETO LEGISLATIVO 15 marzo 2025, n. 33".toList) ∧
    ("DECRETO".toList).length ≤
      (classify_norm_type ("DECRETO LEGISLATIVO 15 marzo 2025, n. 33".toList)).length :=
  (classify_norm_type_longest ("DECRETO LEGISLATIVO 15 marzo 2025, n. 33".toList)).1
    ("DECRETO".toList) (by decide) (by decide)

/-- C7: in the code as written, a failing registry query for one record
aborts the whole batch: `match_norm` has no `try/except`, so the
exception propagates through the `main` loop and no record's result is
produced — the failure is not absorbed as an empty hit list.  The same
batch succeeds in full when the query does not fail. -/
theorem runBatch_query_failure :
    runBatch id detailConv (fun _ => .error errNetwork) (fun _ => .ok [hU1])
      [normEarly, normLate] = .error errNetwork ∧
    (∃ rs : List MatchResult,
      runBatch id detailConv (fun _ => .ok [hU1]) (fun _ => .ok [hU1])
        [normEarly, normLate] = .ok rs ∧ rs.length = 2) := by
  constructor
  · rfl
  · exact ⟨_, rfl, rfl⟩

unseal List.merge List.mergeSort in
/-- C9 counterexample: two retained LEGGE records arrive from the registry
in the order [late, early]; `main` sorts by `dataGU`, so the pipeline
processes them in the order [early, late], not registry order. -/
theorem selectTargets_reorders :
    ([normLate, normEarly].filter (fun a =>
        decide (("2025-03".toList) <+: a.dataGU) &&
        decide (classify_norm_type a.descrizioneAtto ∈ CAMERA_TYPES)))
      = [normLate, normEarly] ∧
    selectTargets ("2025-03".toList) [normLate, normEarly] = [normEarly, normLate] ∧
    selectTargets ("2025-03".toList) [normLate, normEarly] ≠ [normLate, normEarly] := by
  refine ⟨by decide, by decide, by decide⟩

/-- C9 amended: the Batch Orchestrator processes the retained records
(those of the requested month whose instrument type is in
`CAMERA_TYPES`) sorted by ascending `dataGU` — the processed list is a
permutation of the retained records, pairwise ordered by `dataGU` —
rather than in raw registry order; `runBatch` then maps the pipeline over
that list in order. -/
theorem selectTargets_sorted_perm (mp : Str) (ns : List NormRec) :
    (selectTargets mp ns).Perm (ns.filter (fun a =>
      decide (mp <+: a.dataGU) &&
      decide (classify_norm_type a.descrizioneAtto ∈ CAMERA_TYPES))) ∧
    (selectTargets mp ns).Pairwise (fun x y => x.dataGU ≤ y.dataGU) := by
  constructor
  · exact List.mergeSort_perm _ _
  · have htrans : ∀ a b c : NormRec,
        (decide (a.dataGU ≤ b.dataGU)) = true →
        (decide (b.dataGU ≤ c.dataGU)) = true →
        (decide (a.dataGU ≤ c.dataGU)) = true := by
      intro a b c hab hbc
      simp only [decide_eq_true_eq] at hab hbc ⊢
      exact le_trans hab hbc
    have htotal : ∀ a b : NormRec,
        ((decide (a.dataGU ≤ b.dataGU)) || (decide (b.dataGU ≤ a.dataGU))) = true := by
      intro a b
      rcases le_total a.dataGU b.dataGU with h | h
      · simp [h]
      · simp [h]
    have hs := List.sorted_mergeSort htrans htotal
      (ns.filter (fun a => decide (mp <+: a.dataGU) &&
        decide (classify_norm_type a.descrizioneAtto ∈ CAMERA_TYPES)))
    unfold selectTargets
    exact hs.imp (fun hab => of_decide_eq_true hab)
